import Mathlib

/-!
Shallow embedding of the `slab_alloc` crate: a fixed-capacity slab allocator
(`src/lib.rs`) built from per-size-class sections tracked by atomic bitmasks
(`src/section.rs`).  Atomic cells are modelled as plain `Nat` values (the code
is embedded sequentially, one operation at a time); machine integers of width
`w` are `Nat`s kept below `2 ^ w`, with the bitwise complement `!x` embedded as
`(2 ^ w - 1) ^^^ x`.  Fallible operations return `Except`/`Option`, and every
state-mutating method returns the updated state explicitly.
-/

namespace Slab

/-- Embeds `core::alloc::AllocError` (the spec calls it `SectionFull` /
`InvalidSlot` / `NoFit`, the code uses a single unit error type). -/
inductive AllocError where
  | allocError
deriving DecidableEq, Repr

/-- Embeds the crate's `BufTooSmall` construction error. -/
inductive BufTooSmall where
  | bufTooSmall
deriving DecidableEq, Repr

/-- Embeds `section::Atomics`: the five possible widths of the occupancy
bitmask.  Each multi-bit variant carries the current value of the atomic cell
as a `Nat` (well-formed states keep it below `2 ^ width`). -/
inductive Atomics where
  | bool (b : Bool)
  | u8 (v : Nat)
  | u16 (v : Nat)
  | u32 (v : Nat)
  | u64 (v : Nat)
deriving DecidableEq, Repr

/-- Bit width of the bitmask variant (1, 8, 16, 32 or 64). -/
def Atomics.width : Atomics → Nat
  | .bool _ => 1
  | .u8 _ => 8
  | .u16 _ => 16
  | .u32 _ => 32
  | .u64 _ => 64

/-- Current numeric value of the bitmask. -/
def Atomics.val : Atomics → Nat
  | .bool b => if b then 1 else 0
  | .u8 v => v
  | .u16 v => v
  | .u32 v => v
  | .u64 v => v

/-- Well-formedness: the stored value fits in the variant's bit width (holds
automatically for the Rust types `u8`/`u16`/`u32`/`u64`/`bool`). -/
def Atomics.wf (a : Atomics) : Prop := a.val < 2 ^ a.width

instance (a : Atomics) : Decidable a.wf := by
  unfold Atomics.wf; infer_instance

/-- Embeds `section::Section`: a slab size class. -/
structure Section where
  size : Nat
  allocated : Atomics
deriving DecidableEq, Repr

/-- Embeds `Section::new`: stores the caller-supplied atomic as-is. -/
def Section.new (size : Nat) (quantity : Atomics) : Section :=
  { size := size, allocated := quantity }

/-- Embeds `uN::trailing_zeros` (fuelled by the bit width; only reached on
nonzero arguments in this development, where the fuel is never exhausted). -/
def trailingZerosAux : Nat → Nat → Nat
  | 0, _ => 0
  | fuel + 1, n => if n % 2 = 1 then 0 else trailingZerosAux fuel (n / 2) + 1

/-- Embeds `uN::count_zeros`: the number of zero bits among the low `fuel`
bits of `n`. -/
def countZerosAux : Nat → Nat → Nat
  | 0, _ => 0
  | fuel + 1, n => (if n % 2 = 0 then 1 else 0) + countZerosAux fuel (n / 2)

/-- The multi-bit branch of `Section::allocate`: load; if the `w`-bit
complement is zero the mask is saturated, fail; otherwise set the lowest zero
bit `!load & (load + 1)` and return its index. -/
def maskAllocate (w load : Nat) : Except AllocError Nat × Nat :=
  if (2 ^ w - 1) ^^^ load = 0 then
    (Except.error AllocError.allocError, load)
  else
    let setBit := ((2 ^ w - 1) ^^^ load) &&& (load + 1)
    (Except.ok (trailingZerosAux w setBit), load ||| setBit)

/-- Embeds `Section::allocate`.  The `Bool` variant is a compare-exchange
`false → true`; the others run `maskAllocate` at their width. -/
def Section.allocate (s : Section) : Except AllocError Nat × Section :=
  match s.allocated with
  | .bool b =>
      if b then (Except.error AllocError.allocError, s)
      else (Except.ok 0, { s with allocated := .bool true })
  | .u8 v =>
      let r := maskAllocate 8 v
      (r.1, { s with allocated := .u8 r.2 })
  | .u16 v =>
      let r := maskAllocate 16 v
      (r.1, { s with allocated := .u16 r.2 })
  | .u32 v =>
      let r := maskAllocate 32 v
      (r.1, { s with allocated := .u32 r.2 })
  | .u64 v =>
      let r := maskAllocate 64 v
      (r.1, { s with allocated := .u64 r.2 })

/-- The multi-bit branch of `Section::deallocate`: load; if bit `index` is
clear fail, otherwise clear it (`load & !(1 << index)`). -/
def maskDeallocate (w load index : Nat) : Except AllocError Unit × Nat :=
  let setBit := 2 ^ index
  if load &&& setBit = 0 then (Except.error AllocError.allocError, load)
  else (Except.ok (), load &&& ((2 ^ w - 1) ^^^ setBit))

/-- Embeds `Section::deallocate`.  The `Bool` variant is a compare-exchange
`true → false` (ignoring `index`); the others run `maskDeallocate`. -/
def Section.deallocate (s : Section) (index : Nat) : Except AllocError Unit × Section :=
  match s.allocated with
  | .bool b =>
      if b then (Except.ok (), { s with allocated := .bool false })
      else (Except.error AllocError.allocError, s)
  | .u8 v =>
      let r := maskDeallocate 8 v index
      (r.1, { s with allocated := .u8 r.2 })
  | .u16 v =>
      let r := maskDeallocate 16 v index
      (r.1, { s with allocated := .u16 r.2 })
  | .u32 v =>
      let r := maskDeallocate 32 v index
      (r.1, { s with allocated := .u32 r.2 })
  | .u64 v =>
      let r := maskDeallocate 64 v index
      (r.1, { s with allocated := .u64 r.2 })

/-- Embeds `Section::free_slots`: `u32::from(!load)` for the `Bool` variant,
`load.count_zeros()` for the others. -/
def Section.free_slots (s : Section) : Nat :=
  match s.allocated with
  | .bool b => if b then 0 else 1
  | .u8 v => countZerosAux 8 v
  | .u16 v => countZerosAux 16 v
  | .u32 v => countZerosAux 32 v
  | .u64 v => countZerosAux 64 v

/-- Embeds `Section::total_slots`. -/
def Section.total_slots (s : Section) : Nat :=
  match s.allocated with
  | .bool _ => 1
  | .u8 _ => 8
  | .u16 _ => 16
  | .u32 _ => 32
  | .u64 _ => 64

/-- Embeds `Section::percent_free`, `free_slots / total_slots * 100`, over ℚ.
(The source computes in `f32`; on this domain — numerator at most 64 and
denominator a power of two from {1,8,16,32,64} — every intermediate `f32`
value is exactly representable, so the rational model is exact.) -/
def Section.percent_free (s : Section) : ℚ :=
  ((s.free_slots : ℚ) / (s.total_slots : ℚ)) * 100

/-- Byte requirement of a section during construction: `width × size`
(the `Bool` arm of `SlabAllocator::new` uses `size`, i.e. `1 × size`). -/
def sectionBytes (s : Section) : Nat := s.allocated.width * s.size

/-- Embeds `SlabAllocator`: the sections plus one `(start, length)` buffer
slice per section (slices of the backing buffer are modelled by their offset
range). -/
structure SlabAllocator where
  blocks : List Section
  buffer : List (Nat × Nat)
deriving DecidableEq, Repr

/-- The partitioning loop of `SlabAllocator::new`: walk the sections in
order, failing if the remaining buffer is shorter than the section's byte
requirement, otherwise slicing that many bytes off the front. -/
def newGo : List Section → Nat → Nat → Except BufTooSmall (List (Nat × Nat))
  | [], _, _ => Except.ok []
  | s :: rest, pos, rem =>
      let bytes := sectionBytes s
      if rem < bytes then Except.error BufTooSmall.bufTooSmall
      else
        match newGo rest (pos + bytes) (rem - bytes) with
        | Except.error e => Except.error e
        | Except.ok slices => Except.ok ((pos, bytes) :: slices)

/-- Embeds `SlabAllocator::new` for a backing buffer of `bufLen` bytes. -/
def SlabAllocator.new (blocks : List Section) (bufLen : Nat) :
    Except BufTooSmall SlabAllocator :=
  match newGo blocks 0 bufLen with
  | Except.error e => Except.error e
  | Except.ok buffer => Except.ok { blocks := blocks, buffer := buffer }

/-- Embeds `Layout::pad_to_align().size()`: the requested size rounded up to
a multiple of the alignment. -/
def padToAlign (size align : Nat) : Nat := (size + align - 1) / align * align

/-- The section search of `SlabAllocator::allocate`: first `(index, section)`
whose slot size is at least `padded` and which has a free slot. -/
def findFit (padded : Nat) : List Section → Option (Nat × Section)
  | [] => none
  | s :: rest =>
      if padded ≤ s.size ∧ 0 < s.free_slots then some (0, s)
      else (findFit padded rest).map (fun p => (p.1 + 1, p.2))

/-- Embeds `SlabAllocator::allocate`: pad the size, find the first fitting
section, claim a slot, and return the sub-slice
`buffer[index][offset .. offset + size]` as an `(address, length)` range
(note: the code uses the claimed slot index itself as the byte offset). -/
def SlabAllocator.allocate (a : SlabAllocator) (size align : Nat) :
    Except AllocError ((Nat × Nat) × SlabAllocator) :=
  let padded := padToAlign size align
  match findFit padded a.blocks with
  | none => Except.error AllocError.allocError
  | some (index, sec) =>
      match sec.allocate with
      | (Except.error e, _) => Except.error e
      | (Except.ok offset, sec2) =>
          let slice := a.buffer.getD index (0, 0)
          Except.ok ((slice.1 + offset, sec.size),
            { blocks := a.blocks.set index sec2, buffer := a.buffer })

/-- The buffer search of `SlabAllocator::deallocate`: first `(index, slice)`
whose address range `[start, start + len)` contains `ptr`. -/
def findContaining (ptr : Nat) : List (Nat × Nat) → Option (Nat × (Nat × Nat))
  | [] => none
  | slice :: rest =>
      if slice.1 ≤ ptr ∧ ptr < slice.1 + slice.2 then some (0, slice)
      else (findContaining ptr rest).map (fun p => (p.1 + 1, p.2))

/-- Embeds `SlabAllocator::deallocate`: locate the owning slice, compute the
byte offset `ptr - start`, and release that offset as a slot index in the
owning section.  The two `expect` panics are modelled as `none`. -/
def SlabAllocator.deallocate (a : SlabAllocator) (ptr : Nat) :
    Option SlabAllocator :=
  match findContaining ptr a.buffer with
  | none => none
  | some (index, slice) =>
      let offset := ptr - slice.1
      match (a.blocks.getD index (Section.new 0 (Atomics.bool false))).deallocate offset with
      | (Except.error _, _) => none
      | (Except.ok _, sec2) =>
          some { blocks := a.blocks.set index sec2, buffer := a.buffer }

/-- All sections of an allocator (or section list) are well-formed. -/
def SectionsWF (l : List Section) : Prop := ∀ s ∈ l, s.allocated.wf

instance (l : List Section) : Decidable (SectionsWF l) := by
  unfold SectionsWF; infer_instance

/-- Runs `n` consecutive `Section::allocate` calls, collecting the results
in order together with the final section state. -/
def claimSeq : Nat → Section → List (Except AllocError Nat) × Section
  | 0, s => ([], s)
  | n + 1, s =>
      let r := s.allocate
      let rest := claimSeq n r.2
      (r.1 :: rest.1, rest.2)

/-- The buffer slices `SlabAllocator::new` produces on success: contiguous
`(start, length)` ranges in section order beginning at `pos`. -/
def buildSlices : List Section → Nat → List (Nat × Nat)
  | [], _ => []
  | s :: rest, pos => (pos, sectionBytes s) :: buildSlices rest (pos + sectionBytes s)

/-! ### Bit-level helper lemmas -/

theorem testBit_two_mul_zero (a : Nat) : (2 * a).testBit 0 = false := by
  simp [Nat.testBit_zero, Nat.mul_mod_right]

theorem testBit_two_mul_add_one_zero (a : Nat) : (2 * a + 1).testBit 0 = true := by
  simp [Nat.testBit_zero, Nat.mul_add_mod]

theorem testBit_two_mul_succ (a i : Nat) : (2 * a).testBit (i + 1) = a.testBit i := by
  rw [Nat.testBit_add_one, Nat.mul_div_cancel_left _ (by norm_num)]

theorem testBit_two_mul_add_one_succ (a i : Nat) :
    (2 * a + 1).testBit (i + 1) = a.testBit i := by
  rw [Nat.testBit_add_one]
  congr 1
  omega

theorem two_mul_add_one_xor (a b : Nat) :
    (2 * a + 1) ^^^ (2 * b + 1) = 2 * (a ^^^ b) := by
  apply Nat.eq_of_testBit_eq
  intro i
  cases i with
  | zero =>
      rw [Nat.testBit_xor, testBit_two_mul_add_one_zero,
        testBit_two_mul_add_one_zero, testBit_two_mul_zero]
      rfl
  | succ j =>
      rw [Nat.testBit_xor, testBit_two_mul_add_one_succ,
        testBit_two_mul_add_one_succ, testBit_two_mul_succ, ← Nat.testBit_xor]

theorem two_mul_land (a b : Nat) : (2 * a) &&& (2 * b) = 2 * (a &&& b) := by
  apply Nat.eq_of_testBit_eq
  intro i
  cases i with
  | zero =>
      rw [Nat.testBit_and, testBit_two_mul_zero, testBit_two_mul_zero,
        testBit_two_mul_zero]
      rfl
  | succ j =>
      rw [Nat.testBit_and, testBit_two_mul_succ, testBit_two_mul_succ,
        testBit_two_mul_succ, ← Nat.testBit_and]

/-- The lowest-zero-bit identity behind `Section::allocate`: for a mask `m`
with `m + 1 < 2 ^ w`, the value `!m & (m + 1)` (with `!` the `w`-bit
complement) is the power of two at the lowest clear bit of `m`. -/
theorem lowbit_spec : ∀ w m, m + 1 < 2 ^ w →
    ∃ k, k < w ∧ ((2 ^ w - 1) ^^^ m) &&& (m + 1) = 2 ^ k ∧
      m.testBit k = false ∧ ∀ j, j < k → m.testBit j = true := by
  intro w
  induction w with
  | zero => intro m hm; simp at hm
  | succ w ih =>
      intro m hm
      rcases Nat.even_or_odd m with he | ho
      · -- lowest clear bit is bit 0
        obtain ⟨t, ht⟩ := he
        have h2 : m = 2 * t := by omega
        refine ⟨0, Nat.succ_pos w, ?_, ?_, by omega⟩
        · apply Nat.eq_of_testBit_eq
          intro i
          cases i with
          | zero =>
              rw [Nat.testBit_and, Nat.testBit_xor, Nat.testBit_two_pow_sub_one]
              have hb0 : m.testBit 0 = false := by rw [h2]; exact testBit_two_mul_zero t
              have hb1 : (m + 1).testBit 0 = true := by
                have : m + 1 = 2 * t + 1 := by omega
                rw [this]; exact testBit_two_mul_add_one_zero t
              rw [hb0, hb1]
              simp
          | succ j =>
              rw [Nat.testBit_and, Nat.testBit_xor, Nat.testBit_two_pow_sub_one]
              have hb1 : (m + 1).testBit (j + 1) = m.testBit (j + 1) := by
                rw [Nat.testBit_add_one, Nat.testBit_add_one]
                congr 1
                omega
              have hrhs : Nat.testBit (2 ^ 0) (j + 1) = false :=
                Nat.testBit_two_pow_of_ne (by omega)
              rw [hb1, hrhs]
              rcases Nat.lt_or_ge (j + 1) (w + 1) with hlt | hge
              · rw [decide_eq_true hlt]
                cases m.testBit (j + 1) <;> simp
              · have hmb : m.testBit (j + 1) = false :=
                  Nat.testBit_lt_two_pow (by calc
                    m < 2 ^ (w + 1) := by omega
                    _ ≤ 2 ^ (j + 1) := Nat.pow_le_pow_right (by norm_num) hge)
                rw [decide_eq_false (by omega), hmb]
                simp
        · rw [h2]; exact testBit_two_mul_zero t
      · -- odd mask: recurse on m / 2
        obtain ⟨q, hq⟩ := ho
        have hq1 : q + 1 < 2 ^ w := by
          have : 2 ^ (w + 1) = 2 * 2 ^ w := by ring
          omega
        obtain ⟨k, hkw, heq, htb, hlow⟩ := ih q hq1
        refine ⟨k + 1, by omega, ?_, ?_, ?_⟩
        · have h1 : 2 ^ (w + 1) - 1 = 2 * (2 ^ w - 1) + 1 := by
            have : 2 ^ (w + 1) = 2 * 2 ^ w := by ring
            have := Nat.one_le_two_pow (n := w)
            omega
          rw [h1, hq, two_mul_add_one_xor]
          have h2 : 2 * q + 1 + 1 = 2 * (q + 1) := by ring
          rw [h2, two_mul_land, heq]
          ring
        · rw [hq, testBit_two_mul_add_one_succ]
          exact htb
        · intro j hj
          cases j with
          | zero => rw [hq]; exact testBit_two_mul_add_one_zero q
          | succ j' =>
              rw [hq, testBit_two_mul_add_one_succ]
              exact hlow j' (by omega)

theorem trailingZerosAux_two_pow : ∀ k fuel, k < fuel →
    trailingZerosAux fuel (2 ^ k) = k := by
  intro k
  induction k with
  | zero =>
      intro fuel hf
      match fuel, hf with
      | f + 1, _ => simp [trailingZerosAux]
  | succ k ih =>
      intro fuel hf
      match fuel, hf with
      | f + 1, hf =>
          have h2 : 2 ^ (k + 1) % 2 = 0 := by
            simp [Nat.pow_succ, Nat.mul_mod_left]
          have h3 : 2 ^ (k + 1) / 2 = 2 ^ k := by
            rw [Nat.pow_succ, Nat.mul_div_cancel _ (by norm_num)]
          simp only [trailingZerosAux, h2, h3]
          rw [if_neg (by omega), ih f (by omega)]

/-- `count_zeros` counts exactly the clear bits among the low `w` bits. -/
theorem countZerosAux_eq_filter : ∀ w m, countZerosAux w m =
    ((List.range w).filter (fun i => ! m.testBit i)).length := by
  intro w
  induction w with
  | zero => intro m; simp [countZerosAux]
  | succ w ih =>
      intro m
      rw [List.range_succ_eq_map, List.filter_cons, List.filter_map]
      have hcomp : ((fun i => ! m.testBit i) ∘ Nat.succ) =
          fun i => ! (m / 2).testBit i := by
        funext i
        simp [Function.comp, Nat.testBit_add_one]
      rw [hcomp]
      by_cases h0 : m % 2 = 0
      · have hbit : (! m.testBit 0) = true := by
          simp [Nat.testBit_zero]
          omega
        rw [hbit]
        simp only [if_pos, List.length_cons, List.length_map]
        simp only [countZerosAux, if_pos h0, ih]
        omega
      · have hbit : (! m.testBit 0) = false := by
          simp [Nat.testBit_zero]
          omega
        rw [hbit]
        simp only [Bool.false_eq_true, if_false, List.length_map]
        simp only [countZerosAux, if_neg h0, ih]
        omega

theorem countZerosAux_all_ones : ∀ w, countZerosAux w (2 ^ w - 1) = 0 := by
  intro w
  induction w with
  | zero => simp [countZerosAux]
  | succ w ih =>
      have h1 : 2 ^ (w + 1) - 1 = 2 * (2 ^ w - 1) + 1 := by
        have : 2 ^ (w + 1) = 2 * 2 ^ w := by ring
        have := Nat.one_le_two_pow (n := w)
        omega
      have h2 : (2 * (2 ^ w - 1) + 1) % 2 = 1 := by omega
      have h3 : (2 * (2 ^ w - 1) + 1) / 2 = 2 ^ w - 1 := by omega
      simp only [countZerosAux, h1, h2, h3]
      rw [if_neg (by omega), ih]

theorem countZerosAux_zero_val : ∀ w, countZerosAux w 0 = w := by
  intro w
  induction w with
  | zero => simp [countZerosAux]
  | succ w ih =>
      simp [countZerosAux, ih]
      omega

theorem countZerosAux_le : ∀ w m, countZerosAux w m ≤ w := by
  intro w
  induction w with
  | zero => intro m; simp [countZerosAux]
  | succ w ih =>
      intro m
      have := ih (m / 2)
      by_cases h : m % 2 = 0 <;> simp [countZerosAux, h] <;> omega

theorem countZerosAux_eq_width : ∀ w m, countZerosAux w m = w → m % 2 ^ w = 0 := by
  intro w
  induction w with
  | zero => intro m _; omega
  | succ w ih =>
      intro m hm
      have hle := countZerosAux_le w (m / 2)
      by_cases h : m % 2 = 0
      · simp only [countZerosAux, if_pos h] at hm
        have hrec := ih (m / 2) (by omega)
        obtain ⟨t, ht⟩ := Nat.dvd_of_mod_eq_zero hrec
        have hm2 : m = 2 * (m / 2) := by omega
        rw [hm2, ht]
        have h3 : 2 * (2 ^ w * t) = 2 ^ (w + 1) * t := by ring
        rw [h3, Nat.mul_mod_right]
      · simp only [countZerosAux, if_neg h] at hm
        omega

/-- Bit `j` of `m & !(1 << k)` (with the `w`-bit complement): bit `k` is
forced clear, other bits of `m` below the width survive. -/
theorem clearBit_testBit (w k m j : Nat) (hm : m < 2 ^ w) (hk : k < w) :
    (m &&& ((2 ^ w - 1) ^^^ 2 ^ k)).testBit j = (m.testBit j && ! decide (j = k)) := by
  rw [Nat.testBit_and, Nat.testBit_xor, Nat.testBit_two_pow_sub_one,
    Nat.testBit_two_pow]
  rcases Nat.lt_or_ge j w with hj | hj
  · rw [decide_eq_true hj]
    by_cases hjk : j = k
    · subst hjk
      cases m.testBit j <;> simp
    · rw [decide_eq_false hjk, decide_eq_false (fun h => hjk h.symm)]
      cases m.testBit j <;> simp
  · have hmb : m.testBit j = false :=
      Nat.testBit_lt_two_pow (lt_of_lt_of_le hm (Nat.pow_le_pow_right (by norm_num) hj))
    have hkj : ¬ (k = j) := by omega
    rw [decide_eq_false (by omega), decide_eq_false hkj, hmb]
    simp

/-- Setting a clear bit and then clearing it restores the mask exactly. -/
theorem set_then_clear (w k m : Nat) (hm : m < 2 ^ w) (hk : k < w)
    (hbit : m.testBit k = false) :
    (m ||| 2 ^ k) &&& ((2 ^ w - 1) ^^^ 2 ^ k) = m := by
  have hlt : m ||| 2 ^ k < 2 ^ w :=
    Nat.or_lt_two_pow hm (Nat.pow_lt_pow_right (by norm_num) hk)
  apply Nat.eq_of_testBit_eq
  intro j
  rw [clearBit_testBit w k _ j hlt hk, Nat.testBit_or, Nat.testBit_two_pow]
  by_cases hjk : j = k
  · subst hjk
    rw [hbit, decide_eq_true rfl]
    simp
  · rw [decide_eq_false (fun h => hjk h.symm), decide_eq_false hjk]
    simp

/-- `m & (1 << k) = 0` exactly when bit `k` of `m` is clear. -/
theorem land_two_pow_eq_zero_iff (m k : Nat) :
    m &&& 2 ^ k = 0 ↔ m.testBit k = false := by
  have hpos : 0 < 2 ^ k := Nat.pos_pow_of_pos k (by norm_num)
  rw [Nat.and_two_pow]
  cases h : m.testBit k
  · simp
  · simp only [Bool.toNat_true, one_mul]
    constructor
    · intro hz; omega
    · intro hz; simp at hz

/-- Full characterization of a successful `maskAllocate`: if the mask is
well-formed and not saturated, it claims exactly the lowest clear bit. -/
theorem maskAllocate_ok (w m : Nat) (hm : m < 2 ^ w) (hnf : m ≠ 2 ^ w - 1) :
    ∃ k, k < w ∧ m.testBit k = false ∧ (∀ j, j < k → m.testBit j = true) ∧
      maskAllocate w m = (Except.ok k, m ||| 2 ^ k) := by
  have hm1 : m + 1 < 2 ^ w := by
    have := Nat.one_le_two_pow (n := w)
    omega
  obtain ⟨k, hkw, heq, htb, hlow⟩ := lowbit_spec w m hm1
  refine ⟨k, hkw, htb, hlow, ?_⟩
  have hxor : (2 ^ w - 1) ^^^ m ≠ 0 := by
    rw [Ne, Nat.xor_eq_zero]
    omega
  unfold maskAllocate
  rw [if_neg hxor]
  simp only [heq]
  rw [trailingZerosAux_two_pow k w hkw]

theorem maskAllocate_full (w m : Nat) (hm : m = 2 ^ w - 1) :
    maskAllocate w m = (Except.error AllocError.allocError, m) := by
  unfold maskAllocate
  rw [if_pos (by rw [Nat.xor_eq_zero]; omega)]

/-- `maskDeallocate` fails exactly when the bit is already clear, and clears
exactly the requested bit otherwise. -/
theorem maskDeallocate_spec (w m i : Nat) :
    (m.testBit i = false →
      maskDeallocate w m i = (Except.error AllocError.allocError, m)) ∧
    (m.testBit i = true →
      maskDeallocate w m i = (Except.ok (), m &&& ((2 ^ w - 1) ^^^ 2 ^ i))) := by
  constructor
  · intro h
    unfold maskDeallocate
    rw [if_pos ((land_two_pow_eq_zero_iff m i).mpr h)]
  · intro h
    unfold maskDeallocate
    rw [if_neg (fun hc => by
      rw [(land_two_pow_eq_zero_iff m i).mp hc] at h
      exact Bool.false_ne_true h)]

theorem maskAllocate_err_state (w m : Nat) :
    (maskAllocate w m).1 = Except.error AllocError.allocError →
      (maskAllocate w m).2 = m := by
  unfold maskAllocate
  split
  · intro _; rfl
  · intro h; simp at h

theorem maskDeallocate_err_state (w m i : Nat) :
    (maskDeallocate w m i).1 = Except.error AllocError.allocError →
      (maskDeallocate w m i).2 = m := by
  unfold maskDeallocate
  by_cases h : m &&& 2 ^ i = 0
  · simp [h]
  · simp [h]

/-! ### Section-level lemmas -/

/-- A positive `free_slots` count means the low bits are not all ones. -/
theorem free_slots_pos_not_full (s : Section) (hfree : 0 < s.free_slots) :
    s.allocated.val ≠ 2 ^ s.allocated.width - 1 := by
  intro hval
  rcases s with ⟨sz, a⟩
  cases a with
  | bool b =>
      cases b
      · simp [Atomics.val, Atomics.width] at hval
      · simp [Section.free_slots] at hfree
  | u8 v =>
      simp only [Atomics.val, Atomics.width] at hval
      subst hval
      have h0 := countZerosAux_all_ones 8
      simp only [Section.free_slots] at hfree
      omega
  | u16 v =>
      simp only [Atomics.val, Atomics.width] at hval
      subst hval
      have h0 := countZerosAux_all_ones 16
      simp only [Section.free_slots] at hfree
      omega
  | u32 v =>
      simp only [Atomics.val, Atomics.width] at hval
      subst hval
      have h0 := countZerosAux_all_ones 32
      simp only [Section.free_slots] at hfree
      omega
  | u64 v =>
      simp only [Atomics.val, Atomics.width] at hval
      subst hval
      have h0 := countZerosAux_all_ones 64
      simp only [Section.free_slots] at hfree
      omega

/-- Successful claim: with a free slot available, `Section::allocate` returns
the lowest clear bit index and sets exactly that bit. -/
theorem Section.allocate_spec (s : Section) (hwf : s.allocated.wf)
    (hfree : 0 < s.free_slots) :
    ∃ k, k < s.allocated.width ∧ s.allocated.val.testBit k = false ∧
      (∀ j, j < k → s.allocated.val.testBit j = true) ∧
      (s.allocate).1 = Except.ok k ∧
      (s.allocate).2.size = s.size ∧
      (s.allocate).2.allocated.width = s.allocated.width ∧
      (s.allocate).2.allocated.val = s.allocated.val ||| 2 ^ k := by
  have hnf := free_slots_pos_not_full s hfree
  rcases s with ⟨sz, a⟩
  cases a with
  | bool b =>
      cases b
      · exact ⟨0, by simp [Atomics.width],
          by simp [Atomics.val], fun j hj => absurd hj (by omega),
          rfl, rfl, rfl, by simp [Section.allocate, Atomics.val]⟩
      · simp [Section.free_slots] at hfree
  | u8 v =>
      simp only [Atomics.wf, Atomics.val, Atomics.width] at hwf hnf ⊢
      obtain ⟨k, hkw, htb, hlow, heq⟩ := maskAllocate_ok 8 v hwf hnf
      exact ⟨k, hkw, htb, hlow,
        by simp [Section.allocate, heq], by simp [Section.allocate],
        by simp [Section.allocate, Atomics.width],
        by simp [Section.allocate, heq, Atomics.val]⟩
  | u16 v =>
      simp only [Atomics.wf, Atomics.val, Atomics.width] at hwf hnf ⊢
      obtain ⟨k, hkw, htb, hlow, heq⟩ := maskAllocate_ok 16 v hwf hnf
      exact ⟨k, hkw, htb, hlow,
        by simp [Section.allocate, heq], by simp [Section.allocate],
        by simp [Section.allocate, Atomics.width],
        by simp [Section.allocate, heq, Atomics.val]⟩
  | u32 v =>
      simp only [Atomics.wf, Atomics.val, Atomics.width] at hwf hnf ⊢
      obtain ⟨k, hkw, htb, hlow, heq⟩ := maskAllocate_ok 32 v hwf hnf
      exact ⟨k, hkw, htb, hlow,
        by simp [Section.allocate, heq], by simp [Section.allocate],
        by simp [Section.allocate, Atomics.width],
        by simp [Section.allocate, heq, Atomics.val]⟩
  | u64 v =>
      simp only [Atomics.wf, Atomics.val, Atomics.width] at hwf hnf ⊢
      obtain ⟨k, hkw, htb, hlow, heq⟩ := maskAllocate_ok 64 v hwf hnf
      exact ⟨k, hkw, htb, hlow,
        by simp [Section.allocate, heq], by simp [Section.allocate],
        by simp [Section.allocate, Atomics.width],
        by simp [Section.allocate, heq, Atomics.val]⟩

/-- A claimed slot released again restores the section exactly. -/
theorem Section.claim_release (s : Section) (hwf : s.allocated.wf)
    (hfree : 0 < s.free_slots) :
    ∃ k, (s.allocate).1 = Except.ok k ∧
      (s.allocate).2.deallocate k = (Except.ok (), s) := by
  have hnf := free_slots_pos_not_full s hfree
  rcases s with ⟨sz, a⟩
  cases a with
  | bool b =>
      cases b
      · exact ⟨0, rfl, rfl⟩
      · simp [Section.free_slots] at hfree
  | u8 v =>
      simp only [Atomics.wf, Atomics.val, Atomics.width] at hwf hnf
      obtain ⟨k, hkw, htb, _, heq⟩ := maskAllocate_ok 8 v hwf hnf
      have hset : (v ||| 2 ^ k).testBit k = true := by
        simp [Nat.testBit_or, Nat.testBit_two_pow]
      have hdeq := (maskDeallocate_spec 8 (v ||| 2 ^ k) k).2 hset
      refine ⟨k, ?_, ?_⟩
      · simp only [Section.allocate, heq]
      · simp only [Section.allocate, heq, Section.deallocate, hdeq,
          set_then_clear 8 k v hwf hkw htb]
  | u16 v =>
      simp only [Atomics.wf, Atomics.val, Atomics.width] at hwf hnf
      obtain ⟨k, hkw, htb, _, heq⟩ := maskAllocate_ok 16 v hwf hnf
      have hset : (v ||| 2 ^ k).testBit k = true := by
        simp [Nat.testBit_or, Nat.testBit_two_pow]
      have hdeq := (maskDeallocate_spec 16 (v ||| 2 ^ k) k).2 hset
      refine ⟨k, ?_, ?_⟩
      · simp only [Section.allocate, heq]
      · simp only [Section.allocate, heq, Section.deallocate, hdeq,
          set_then_clear 16 k v hwf hkw htb]
  | u32 v =>
      simp only [Atomics.wf, Atomics.val, Atomics.width] at hwf hnf
      obtain ⟨k, hkw, htb, _, heq⟩ := maskAllocate_ok 32 v hwf hnf
      have hset : (v ||| 2 ^ k).testBit k = true := by
        simp [Nat.testBit_or, Nat.testBit_two_pow]
      have hdeq := (maskDeallocate_spec 32 (v ||| 2 ^ k) k).2 hset
      refine ⟨k, ?_, ?_⟩
      · simp only [Section.allocate, heq]
      · simp only [Section.allocate, heq, Section.deallocate, hdeq,
          set_then_clear 32 k v hwf hkw htb]
  | u64 v =>
      simp only [Atomics.wf, Atomics.val, Atomics.width] at hwf hnf
      obtain ⟨k, hkw, htb, _, heq⟩ := maskAllocate_ok 64 v hwf hnf
      have hset : (v ||| 2 ^ k).testBit k = true := by
        simp [Nat.testBit_or, Nat.testBit_two_pow]
      have hdeq := (maskDeallocate_spec 64 (v ||| 2 ^ k) k).2 hset
      refine ⟨k, ?_, ?_⟩
      · simp only [Section.allocate, heq]
      · simp only [Section.allocate, heq, Section.deallocate, hdeq,
          set_then_clear 64 k v hwf hkw htb]

/-- `Section::deallocate` fails exactly when the bit at the given in-range
index is already clear; on success it clears exactly that bit. -/
theorem Section.deallocate_spec (s : Section) (hwf : s.allocated.wf) (i : Nat)
    (hi : i < s.allocated.width) :
    ((s.deallocate i).1 = Except.error AllocError.allocError ↔
      s.allocated.val.testBit i = false) ∧
    (s.allocated.val.testBit i = true →
      (s.deallocate i).1 = Except.ok () ∧
      (s.deallocate i).2.size = s.size ∧
      (s.deallocate i).2.allocated.width = s.allocated.width ∧
      ∀ j, (s.deallocate i).2.allocated.val.testBit j =
        (s.allocated.val.testBit j && ! decide (j = i))) := by
  rcases s with ⟨sz, a⟩
  cases a with
  | bool b =>
      simp only [Atomics.width] at hi
      have hi0 : i = 0 := by omega
      subst hi0
      cases b
      · constructor
        · simp [Section.deallocate, Atomics.val]
        · simp [Atomics.val]
      · constructor
        · simp [Section.deallocate, Atomics.val]
        · intro _
          refine ⟨rfl, rfl, rfl, ?_⟩
          intro j
          cases j with
          | zero => simp [Section.deallocate, Atomics.val]
          | succ j' =>
              simp [Section.deallocate, Atomics.val, Nat.testBit_add_one]
  | u8 v =>
      simp only [Atomics.wf, Atomics.val, Atomics.width] at hwf hi ⊢
      cases hb : v.testBit i
      · have hderr := (maskDeallocate_spec 8 v i).1 hb
        constructor
        · simp [Section.deallocate, hderr]
        · intro h; simp at h
      · have hdok := (maskDeallocate_spec 8 v i).2 hb
        constructor
        · simp [Section.deallocate, hdok]
        · intro _
          refine ⟨by simp [Section.deallocate, hdok], rfl, rfl, ?_⟩
          intro j
          simp only [Section.deallocate, hdok, Atomics.val]
          exact clearBit_testBit 8 i v j hwf hi
  | u16 v =>
      simp only [Atomics.wf, Atomics.val, Atomics.width] at hwf hi ⊢
      cases hb : v.testBit i
      · have hderr := (maskDeallocate_spec 16 v i).1 hb
        constructor
        · simp [Section.deallocate, hderr]
        · intro h; simp at h
      · have hdok := (maskDeallocate_spec 16 v i).2 hb
        constructor
        · simp [Section.deallocate, hdok]
        · intro _
          refine ⟨by simp [Section.deallocate, hdok], rfl, rfl, ?_⟩
          intro j
          simp only [Section.deallocate, hdok, Atomics.val]
          exact clearBit_testBit 16 i v j hwf hi
  | u32 v =>
      simp only [Atomics.wf, Atomics.val, Atomics.width] at hwf hi ⊢
      cases hb : v.testBit i
      · have hderr := (maskDeallocate_spec 32 v i).1 hb
        constructor
        · simp [Section.deallocate, hderr]
        · intro h; simp at h
      · have hdok := (maskDeallocate_spec 32 v i).2 hb
        constructor
        · simp [Section.deallocate, hdok]
        · intro _
          refine ⟨by simp [Section.deallocate, hdok], rfl, rfl, ?_⟩
          intro j
          simp only [Section.deallocate, hdok, Atomics.val]
          exact clearBit_testBit 32 i v j hwf hi
  | u64 v =>
      simp only [Atomics.wf, Atomics.val, Atomics.width] at hwf hi ⊢
      cases hb : v.testBit i
      · have hderr := (maskDeallocate_spec 64 v i).1 hb
        constructor
        · simp [Section.deallocate, hderr]
        · intro h; simp at h
      · have hdok := (maskDeallocate_spec 64 v i).2 hb
        constructor
        · simp [Section.deallocate, hdok]
        · intro _
          refine ⟨by simp [Section.deallocate, hdok], rfl, rfl, ?_⟩
          intro j
          simp only [Section.deallocate, hdok, Atomics.val]
          exact clearBit_testBit 64 i v j hwf hi

/-- A failed claim leaves the section untouched. -/
theorem Section.allocate_err_state (s : Section) :
    (s.allocate).1 = Except.error AllocError.allocError →
      (s.allocate).2 = s := by
  rcases s with ⟨sz, a⟩
  cases a with
  | bool b => cases b <;> simp [Section.allocate]
  | u8 v =>
      intro h
      simp only [Section.allocate] at h ⊢
      rw [maskAllocate_err_state 8 v h]
  | u16 v =>
      intro h
      simp only [Section.allocate] at h ⊢
      rw [maskAllocate_err_state 16 v h]
  | u32 v =>
      intro h
      simp only [Section.allocate] at h ⊢
      rw [maskAllocate_err_state 32 v h]
  | u64 v =>
      intro h
      simp only [Section.allocate] at h ⊢
      rw [maskAllocate_err_state 64 v h]

/-- A failed release leaves the section untouched. -/
theorem Section.deallocate_err_state (s : Section) (i : Nat) :
    (s.deallocate i).1 = Except.error AllocError.allocError →
      (s.deallocate i).2 = s := by
  rcases s with ⟨sz, a⟩
  cases a with
  | bool b => cases b <;> simp [Section.deallocate]
  | u8 v =>
      intro h
      simp only [Section.deallocate] at h ⊢
      rw [maskDeallocate_err_state 8 v i h]
  | u16 v =>
      intro h
      simp only [Section.deallocate] at h ⊢
      rw [maskDeallocate_err_state 16 v i h]
  | u32 v =>
      intro h
      simp only [Section.deallocate] at h ⊢
      rw [maskDeallocate_err_state 32 v i h]
  | u64 v =>
      intro h
      simp only [Section.deallocate] at h ⊢
      rw [maskDeallocate_err_state 64 v i h]

/-! ### List-level lemmas: section search, buffer partitioning -/

theorem findFit_none_iff (p : Nat) : ∀ l : List Section,
    findFit p l = none ↔ ∀ s ∈ l, ¬ (p ≤ s.size ∧ 0 < s.free_slots) := by
  intro l
  induction l with
  | nil => simp [findFit]
  | cons s rest ih =>
      unfold findFit
      by_cases h : p ≤ s.size ∧ 0 < s.free_slots
      · rw [if_pos h]
        constructor
        · intro hc; exact Option.noConfusion hc
        · intro hall; exact absurd h (hall s (List.mem_cons_self s rest))
      · simp only [if_neg h, Option.map_eq_none', ih]
        constructor
        · intro hall t ht
          rcases List.mem_cons.mp ht with rfl | ht'
          · exact h
          · exact hall t ht'
        · intro hall t ht
          exact hall t (List.mem_cons_of_mem s ht)

theorem findFit_some_spec (p : Nat) : ∀ (l : List Section) i sec,
    findFit p l = some (i, sec) →
    l.get? i = some sec ∧ (p ≤ sec.size ∧ 0 < sec.free_slots) ∧
    ∀ j (hj : j < l.length), j < i →
      ¬ (p ≤ (l.get ⟨j, hj⟩).size ∧ 0 < (l.get ⟨j, hj⟩).free_slots) := by
  intro l
  induction l with
  | nil => intro i sec h; simp [findFit] at h
  | cons s rest ih =>
      intro i sec h
      unfold findFit at h
      by_cases hp : p ≤ s.size ∧ 0 < s.free_slots
      · rw [if_pos hp] at h
        simp only [Option.some.injEq, Prod.mk.injEq] at h
        obtain ⟨rfl, rfl⟩ := h
        exact ⟨rfl, hp, fun j hj hj0 => absurd hj0 (by omega)⟩
      · rw [if_neg hp] at h
        rcases Option.map_eq_some'.mp h with ⟨⟨a, b⟩, hrec, hmap⟩
        simp only [Prod.mk.injEq] at hmap
        obtain ⟨rfl, rfl⟩ := hmap
        obtain ⟨hget, hpred, hmin⟩ := ih a b hrec
        refine ⟨hget, hpred, ?_⟩
        intro j hj hji
        cases j with
        | zero => exact hp
        | succ j' => exact hmin j' (by simpa using hj) (by omega)

/-- Prefix sums of byte requirements never exceed the total. -/
theorem take_sum_get_le : ∀ (l : List Section) j (hj : j < l.length),
    ((l.take j).map sectionBytes).sum + sectionBytes (l.get ⟨j, hj⟩) ≤
      (l.map sectionBytes).sum := by
  intro l
  induction l with
  | nil => intro j hj; simp at hj
  | cons s rest ih =>
      intro j hj
      cases j with
      | zero => simp
      | succ j' =>
          have := ih j' (by simpa using hj)
          simp only [List.take, List.map, List.sum_cons, List.get]
          omega

/-- The partitioning loop fails exactly when some section's byte requirement
exceeds the buffer remaining when that section is reached. -/
theorem newGo_error_iff : ∀ (l : List Section) (pos rem : Nat),
    newGo l pos rem = Except.error BufTooSmall.bufTooSmall ↔
    ∃ j, ∃ hj : j < l.length,
      rem - ((l.take j).map sectionBytes).sum < sectionBytes (l.get ⟨j, hj⟩) := by
  intro l
  induction l with
  | nil =>
      intro pos rem
      simp [newGo]
  | cons s rest ih =>
      intro pos rem
      unfold newGo
      by_cases h : rem < sectionBytes s
      · rw [if_pos h]
        simp only [true_iff]
        exact ⟨0, by simp, by simpa using h⟩
      · rw [if_neg h]
        cases hrec : newGo rest (pos + sectionBytes s) (rem - sectionBytes s) with
        | error e =>
            cases e
            simp only [hrec]
            have hrec' := (ih (pos + sectionBytes s) (rem - sectionBytes s)).mp hrec
            obtain ⟨j, hj, hlt⟩ := hrec'
            simp only [true_iff]
            refine ⟨j + 1, by simpa using Nat.succ_lt_succ hj, ?_⟩
            simp only [List.take, List.map, List.sum_cons, List.get]
            omega
        | ok slices =>
            simp only [hrec]
            constructor
            · intro hcontra; simp at hcontra
            · rintro ⟨j, hj, hlt⟩
              exfalso
              cases j with
              | zero =>
                  simp only [List.take, List.map, List.sum_cons, List.get] at hlt
                  simp at hlt
                  omega
              | succ j' =>
                  have hj' : j' < rest.length := by simpa using hj
                  have : rem - sectionBytes s -
                      ((rest.take j').map sectionBytes).sum <
                      sectionBytes (rest.get ⟨j', hj'⟩) := by
                    simp only [List.take, List.map, List.sum_cons, List.get] at hlt
                    omega
                  have := (ih (pos + sectionBytes s) (rem - sectionBytes s)).mpr
                    ⟨j', hj', this⟩
                  rw [hrec] at this
                  exact Except.noConfusion this

/-- On success the partitioning loop produces exactly the contiguous slice
layout `buildSlices`. -/
theorem newGo_ok_slices : ∀ (l : List Section) (pos rem : Nat) (sl : List (Nat × Nat)),
    newGo l pos rem = Except.ok sl → sl = buildSlices l pos := by
  intro l
  induction l with
  | nil =>
      intro pos rem sl h
      simp [newGo] at h
      simp [buildSlices, h.symm]
  | cons s rest ih =>
      intro pos rem sl h
      unfold newGo at h
      by_cases hlt : rem < sectionBytes s
      · rw [if_pos hlt] at h; exact Except.noConfusion h
      · rw [if_neg hlt] at h
        cases hrec : newGo rest (pos + sectionBytes s) (rem - sectionBytes s) with
        | error e => rw [hrec] at h; exact Except.noConfusion h
        | ok slices =>
            rw [hrec] at h
            have hsl := Except.ok.inj h
            rw [← hsl, buildSlices, ih _ _ _ hrec]

theorem buildSlices_length : ∀ (l : List Section) (pos : Nat),
    (buildSlices l pos).length = l.length := by
  intro l
  induction l with
  | nil => intro pos; rfl
  | cons s rest ih => intro pos; simp [buildSlices, ih]

theorem buildSlices_get? : ∀ (l : List Section) (pos i : Nat) (hi : i < l.length),
    (buildSlices l pos).get? i =
      some (pos + ((l.take i).map sectionBytes).sum,
        sectionBytes (l.get ⟨i, hi⟩)) := by
  intro l
  induction l with
  | nil => intro pos i hi; simp at hi
  | cons s rest ih =>
      intro pos i hi
      cases i with
      | zero => simp [buildSlices]
      | succ j =>
          have hj : j < rest.length := by simpa using hi
          simp only [buildSlices, List.get?, List.take, List.map,
            List.sum_cons, List.get]
          rw [ih (pos + sectionBytes s) j hj]
          congr 2
          omega

/-- Resolving an address inside slice `i` of a contiguous layout finds
exactly slice `i` (earlier slices end before it). -/
theorem findContaining_buildSlices :
    ∀ (l : List Section) (pos i : Nat) (hi : i < l.length) (addr : Nat),
    pos + ((l.take i).map sectionBytes).sum ≤ addr →
    addr < pos + ((l.take i).map sectionBytes).sum + sectionBytes (l.get ⟨i, hi⟩) →
    findContaining addr (buildSlices l pos) =
      some (i, (pos + ((l.take i).map sectionBytes).sum,
        sectionBytes (l.get ⟨i, hi⟩))) := by
  intro l
  induction l with
  | nil => intro pos i hi; simp at hi
  | cons s rest ih =>
      intro pos i hi addr hlo hhi
      cases i with
      | zero =>
          have hsum0 : (((s :: rest).take 0).map sectionBytes).sum = 0 := rfl
          have hget0 : (s :: rest).get ⟨0, hi⟩ = s := rfl
          rw [hsum0] at hlo
          rw [hsum0, hget0] at hhi
          rw [hsum0, hget0]
          simp only [buildSlices, findContaining]
          rw [if_pos ⟨by omega, by omega⟩]
          simp
      | succ j =>
          have hj : j < rest.length := by simpa using hi
          have hget : (s :: rest).get ⟨j + 1, hi⟩ = rest.get ⟨j, hj⟩ := rfl
          have hsum : (((s :: rest).take (j + 1)).map sectionBytes).sum =
              sectionBytes s + ((rest.take j).map sectionBytes).sum := by
            simp [List.take]
          rw [hsum] at hlo
          rw [hsum, hget] at hhi
          rw [hsum, hget]
          simp only [buildSlices, findContaining]
          rw [if_neg (by omega)]
          rw [ih (pos + sectionBytes s) j hj addr (by omega) (by omega)]
          simp only [Option.map_some']
          have hassoc : pos + sectionBytes s + ((rest.take j).map sectionBytes).sum =
              pos + (sectionBytes s + ((rest.take j).map sectionBytes).sum) := by
            omega
          rw [hassoc]

/-- Setting an index back to the value it already holds is the identity. -/
theorem list_set_same : ∀ (l : List Section) (i : Nat) (x : Section),
    l.get? i = some x → l.set i x = l := by
  intro l
  induction l with
  | nil => intro i x h; simp at h
  | cons s rest ih =>
      intro i x h
      cases i with
      | zero =>
          simp only [List.get?] at h
          simp [Option.some.inj h]
      | succ j =>
          simp only [List.get?] at h
          simp [List.set, ih j x h]

/-- `pad_to_align` rounds the size up to the least multiple of the
alignment. -/
theorem padToAlign_spec (size align : Nat) (h : 0 < align) :
    size ≤ padToAlign size align ∧ align ∣ padToAlign size align ∧
      padToAlign size align < size + align := by
  unfold padToAlign
  have hdm := Nat.div_add_mod (size + align - 1) align
  have hmod : (size + align - 1) % align < align := Nat.mod_lt _ h
  have hcomm : (size + align - 1) / align * align =
      align * ((size + align - 1) / align) := Nat.mul_comm _ _
  exact ⟨by omega, dvd_mul_left align _, by omega⟩

theorem countZerosAux_zero_imp : ∀ w m, countZerosAux w m = 0 →
    m % 2 ^ w = 2 ^ w - 1 := by
  intro w
  induction w with
  | zero => intro m _; omega
  | succ w ih =>
      intro m hm
      simp only [countZerosAux] at hm
      by_cases h : m % 2 = 0
      · rw [if_pos h] at hm; omega
      · rw [if_neg h] at hm
        have hrec := ih (m / 2) (by omega)
        have h2 : (2 : Nat) ^ (w + 1) = 2 * 2 ^ w := by ring
        rw [h2, Nat.mod_mul]
        have := Nat.one_le_two_pow (n := w)
        omega

/-- With no free slot, a claim fails. -/
theorem Section.free_slots_zero_err (s : Section) (hwf : s.allocated.wf)
    (hzero : s.free_slots = 0) :
    (s.allocate).1 = Except.error AllocError.allocError := by
  rcases s with ⟨sz, a⟩
  cases a with
  | bool b =>
      cases b
      · simp [Section.free_slots] at hzero
      · rfl
  | u8 v =>
      simp only [Atomics.wf, Atomics.val, Atomics.width] at hwf
      simp only [Section.free_slots] at hzero
      have hv : v = 2 ^ 8 - 1 := by
        have := countZerosAux_zero_imp 8 v hzero
        rwa [Nat.mod_eq_of_lt hwf] at this
      simp [Section.allocate, maskAllocate_full 8 v hv]
  | u16 v =>
      simp only [Atomics.wf, Atomics.val, Atomics.width] at hwf
      simp only [Section.free_slots] at hzero
      have hv : v = 2 ^ 16 - 1 := by
        have := countZerosAux_zero_imp 16 v hzero
        rwa [Nat.mod_eq_of_lt hwf] at this
      simp [Section.allocate, maskAllocate_full 16 v hv]
  | u32 v =>
      simp only [Atomics.wf, Atomics.val, Atomics.width] at hwf
      simp only [Section.free_slots] at hzero
      have hv : v = 2 ^ 32 - 1 := by
        have := countZerosAux_zero_imp 32 v hzero
        rwa [Nat.mod_eq_of_lt hwf] at this
      simp [Section.allocate, maskAllocate_full 32 v hv]
  | u64 v =>
      simp only [Atomics.wf, Atomics.val, Atomics.width] at hwf
      simp only [Section.free_slots] at hzero
      have hv : v = 2 ^ 64 - 1 := by
        have := countZerosAux_zero_imp 64 v hzero
        rwa [Nat.mod_eq_of_lt hwf] at this
      simp [Section.allocate, maskAllocate_full 64 v hv]

/-- The free count reaches the capacity exactly on the zero mask. -/
theorem Section.free_eq_total_iff (s : Section) (hwf : s.allocated.wf) :
    s.free_slots = s.total_slots ↔ s.allocated.val = 0 := by
  rcases s with ⟨sz, a⟩
  cases a with
  | bool b =>
      cases b
      · simp [Section.free_slots, Section.total_slots, Atomics.val]
      · simp [Section.free_slots, Section.total_slots, Atomics.val]
  | u8 v =>
      simp only [Atomics.wf, Atomics.val, Atomics.width] at hwf
      simp only [Section.free_slots, Section.total_slots, Atomics.val]
      constructor
      · intro h
        have := countZerosAux_eq_width 8 v h
        rwa [Nat.mod_eq_of_lt hwf] at this
      · intro h; rw [h]; exact countZerosAux_zero_val 8
  | u16 v =>
      simp only [Atomics.wf, Atomics.val, Atomics.width] at hwf
      simp only [Section.free_slots, Section.total_slots, Atomics.val]
      constructor
      · intro h
        have := countZerosAux_eq_width 16 v h
        rwa [Nat.mod_eq_of_lt hwf] at this
      · intro h; rw [h]; exact countZerosAux_zero_val 16
  | u32 v =>
      simp only [Atomics.wf, Atomics.val, Atomics.width] at hwf
      simp only [Section.free_slots, Section.total_slots, Atomics.val]
      constructor
      · intro h
        have := countZerosAux_eq_width 32 v h
        rwa [Nat.mod_eq_of_lt hwf] at this
      · intro h; rw [h]; exact countZerosAux_zero_val 32
  | u64 v =>
      simp only [Atomics.wf, Atomics.val, Atomics.width] at hwf
      simp only [Section.free_slots, Section.total_slots, Atomics.val]
      constructor
      · intro h
        have := countZerosAux_eq_width 64 v h
        rwa [Nat.mod_eq_of_lt hwf] at this
      · intro h; rw [h]; exact countZerosAux_zero_val 64

/-- `SlabAllocator::allocate` fails exactly when no section passes the
first-fit test (given well-formed sections). -/
theorem allocate_error_iff (a : SlabAllocator) (size align : Nat)
    (hwf : SectionsWF a.blocks) :
    a.allocate size align = Except.error AllocError.allocError ↔
      ∀ s ∈ a.blocks, ¬ (padToAlign size align ≤ s.size ∧ 0 < s.free_slots) := by
  unfold SlabAllocator.allocate
  cases hfind : findFit (padToAlign size align) a.blocks with
  | none =>
      simp only [hfind]
      exact iff_of_true trivial ((findFit_none_iff _ a.blocks).mp hfind)
  | some p =>
      obtain ⟨i, sec⟩ := p
      obtain ⟨hget, hpred, _⟩ := findFit_some_spec _ a.blocks i sec hfind
      have hmem : sec ∈ a.blocks := List.get?_mem hget
      have hsecwf : sec.allocated.wf := hwf sec hmem
      obtain ⟨k, _, _, _, hok, _⟩ := Section.allocate_spec sec hsecwf hpred.2
      cases halloc : sec.allocate with
      | mk r sec2 =>
          rw [halloc] at hok
          have hr : r = Except.ok k := hok
          subst hr
          simp only [hfind, halloc]
          constructor
          · intro hc
            exact Except.noConfusion hc
          · intro hall
            exact absurd hpred (hall sec hmem)

/-- Reduction of `SlabAllocator::deallocate` on a successful release. -/
theorem SlabAllocator.deallocate_ok_eq (a : SlabAllocator) (ptr i : Nat)
    (slice : Nat × Nat) (sec2 sec3 : Section)
    (hfc : findContaining ptr a.buffer = some (i, slice))
    (hsec : a.blocks.getD i (Section.new 0 (Atomics.bool false)) = sec2)
    (hde : sec2.deallocate (ptr - slice.1) = (Except.ok (), sec3)) :
    a.deallocate ptr = some { blocks := a.blocks.set i sec3, buffer := a.buffer } := by
  unfold SlabAllocator.deallocate
  simp only [hfc, hsec, hde]

/-- Reduction of `SlabAllocator::allocate` on a successful claim. -/
theorem SlabAllocator.allocate_ok_eq (a : SlabAllocator) (size align i : Nat)
    (sec : Section) (k : Nat)
    (hfind : findFit (padToAlign size align) a.blocks = some (i, sec))
    (halloc : sec.allocate = (Except.ok k, (sec.allocate).2)) :
    a.allocate size align = Except.ok
      (((a.buffer.getD i (0, 0)).1 + k, sec.size),
        { blocks := a.blocks.set i (sec.allocate).2, buffer := a.buffer }) := by
  unfold SlabAllocator.allocate
  simp only [hfind]
  conv_lhs => rw [halloc]

/-! ### Claim theorems -/

/-- C1 (code bug).  The claim states that a successful allocate of slot `i`
in a section of slot size `s` returns the range starting at
`section_buffer_start + i × s`, and that deallocate passes
`(address − slice_start) / s` to the section's release.  The code instead
uses the raw slot index as the byte offset (`buffer[index][offset..]` with
`offset = slot_index`) and passes the raw byte offset as the release index.
Evaluated here: one section of slot size 2 with slot 0 already taken; the
allocate claims slot 1 but returns address 1 (overlapping slot 0's range
`[0,2)`) instead of `1 × 2 = 2`; and deallocating address 3 releases slot
index 3 even though the claim's index `3 / 2 = 1` is not even set. -/
theorem allocate_address_not_scaled :
    SlabAllocator.new [Section.new 2 (Atomics.u8 1)] 16 =
      Except.ok { blocks := [Section.new 2 (Atomics.u8 1)], buffer := [(0, 16)] } ∧
    SlabAllocator.allocate
        { blocks := [Section.new 2 (Atomics.u8 1)], buffer := [(0, 16)] } 2 1 =
      Except.ok ((1, 2),
        { blocks := [Section.new 2 (Atomics.u8 3)], buffer := [(0, 16)] }) ∧
    (1 : Nat) ≠ 0 + 1 * 2 ∧
    SlabAllocator.deallocate
        { blocks := [Section.new 2 (Atomics.u8 8)], buffer := [(0, 16)] } 3 =
      some { blocks := [Section.new 2 (Atomics.u8 0)], buffer := [(0, 16)] } ∧
    ((Section.new 2 (Atomics.u8 8)).deallocate ((3 - 0) / 2)).1 =
      Except.error AllocError.allocError :=
  ⟨rfl, rfl, by decide, rfl, rfl⟩

/-- C3 counterexample.  The claim says that with sections declared in order
`[slot_size = 20, slot_size = 10]` (both empty) a request of size 15 fails
with `NoFit`; in fact the first section (slot size 20) fits and has free
slots, so the allocation succeeds and is served from it. -/
theorem first_fit_20_10_succeeds :
    SlabAllocator.new
        [Section.new 20 (Atomics.u8 0), Section.new 10 (Atomics.u8 0)] 240 =
      Except.ok
        { blocks := [Section.new 20 (Atomics.u8 0), Section.new 10 (Atomics.u8 0)],
          buffer := [(0, 160), (160, 80)] } ∧
    SlabAllocator.allocate
        { blocks := [Section.new 20 (Atomics.u8 0), Section.new 10 (Atomics.u8 0)],
          buffer := [(0, 160), (160, 80)] } 15 1 =
      Except.ok ((0, 20),
        { blocks := [Section.new 20 (Atomics.u8 1), Section.new 10 (Atomics.u8 0)],
          buffer := [(0, 160), (160, 80)] }) :=
  ⟨rfl, rfl⟩

/-- C3 (amended).  With sections `[10, 20]` (both empty) a request of size 15
(align 1) is served from the size-20 section (index 1, address 80 in the
second slice); with sections `[20, 10]` the same request also succeeds and is
served from the size-20 section, which is now first (index 0, address 0). -/
theorem first_fit_order_scenarios :
    SlabAllocator.new
        [Section.new 10 (Atomics.u8 0), Section.new 20 (Atomics.u8 0)] 240 =
      Except.ok
        { blocks := [Section.new 10 (Atomics.u8 0), Section.new 20 (Atomics.u8 0)],
          buffer := [(0, 80), (80, 160)] } ∧
    findFit (padToAlign 15 1)
        [Section.new 10 (Atomics.u8 0), Section.new 20 (Atomics.u8 0)] =
      some (1, Section.new 20 (Atomics.u8 0)) ∧
    SlabAllocator.allocate
        { blocks := [Section.new 10 (Atomics.u8 0), Section.new 20 (Atomics.u8 0)],
          buffer := [(0, 80), (80, 160)] } 15 1 =
      Except.ok ((80, 20),
        { blocks := [Section.new 10 (Atomics.u8 0), Section.new 20 (Atomics.u8 1)],
          buffer := [(0, 80), (80, 160)] }) ∧
    findFit (padToAlign 15 1)
        [Section.new 20 (Atomics.u8 0), Section.new 10 (Atomics.u8 0)] =
      some (0, Section.new 20 (Atomics.u8 0)) ∧
    SlabAllocator.allocate
        { blocks := [Section.new 20 (Atomics.u8 0), Section.new 10 (Atomics.u8 0)],
          buffer := [(0, 160), (160, 80)] } 15 1 =
      Except.ok ((0, 20),
        { blocks := [Section.new 20 (Atomics.u8 1), Section.new 10 (Atomics.u8 0)],
          buffer := [(0, 160), (160, 80)] }) :=
  ⟨rfl, rfl, rfl, rfl, rfl⟩

/-- C2.  `allocate(size, align)` pads the size by rounding it up to the least
multiple of the alignment, scans the sections in declaration order, selects
the first whose slot size is at least the padded size and which has a free
slot, and fails (`NoFit`) exactly when no section satisfies both
conditions. -/
theorem allocate_first_fit (a : SlabAllocator) (size align : Nat)
    (halign : 0 < align) (hwf : SectionsWF a.blocks) :
    (size ≤ padToAlign size align ∧ align ∣ padToAlign size align ∧
      padToAlign size align < size + align) ∧
    (a.allocate size align = Except.error AllocError.allocError ↔
      ∀ s ∈ a.blocks, ¬ (padToAlign size align ≤ s.size ∧ 0 < s.free_slots)) ∧
    (∀ i sec, findFit (padToAlign size align) a.blocks = some (i, sec) →
      a.blocks.get? i = some sec ∧
      (padToAlign size align ≤ sec.size ∧ 0 < sec.free_slots) ∧
      ∀ j (hj : j < a.blocks.length), j < i →
        ¬ (padToAlign size align ≤ (a.blocks.get ⟨j, hj⟩).size ∧
          0 < (a.blocks.get ⟨j, hj⟩).free_slots)) :=
  ⟨padToAlign_spec size align halign, allocate_error_iff a size align hwf,
    fun i sec h => findFit_some_spec _ a.blocks i sec h⟩

/-- Witness for C2: a size-3/align-2 request (padded to 4) against a single
empty section of slot size 10 does not fail. -/
theorem allocate_first_fit_witness :
    SlabAllocator.allocate
        { blocks := [Section.new 10 (Atomics.u8 0)], buffer := [(0, 80)] } 3 2 ≠
      Except.error AllocError.allocError := by
  intro hc
  have h := allocate_first_fit
    { blocks := [Section.new 10 (Atomics.u8 0)], buffer := [(0, 80)] } 3 2
    (by norm_num) (by decide)
  exact (h.2.1.mp hc) (Section.new 10 (Atomics.u8 0)) (by simp)
    ⟨by decide, by decide⟩

set_option maxRecDepth 8192 in
/-- C4.  A claim on any well-formed section with a free slot reserves the
lowest-index free slot (the lowest-order zero bit of the mask); and for every
bitmask width W ∈ {1, 8, 16, 32, 64}, starting from an empty mask, W
consecutive claims succeed returning indices 0, …, W−1 in order and the
(W+1)-th fails (`SectionFull`). -/
theorem claim_lowest_and_exhaustion (s : Section) (hwf : s.allocated.wf)
    (hfree : 0 < s.free_slots) :
    (∃ k, k < s.allocated.width ∧ s.allocated.val.testBit k = false ∧
      (∀ j, j < k → s.allocated.val.testBit j = true) ∧
      (s.allocate).1 = Except.ok k ∧
      (s.allocate).2.size = s.size ∧
      (s.allocate).2.allocated.width = s.allocated.width ∧
      (s.allocate).2.allocated.val = s.allocated.val ||| 2 ^ k) ∧
    (claimSeq 2 (Section.new 0 (Atomics.bool false))).1 =
      ((List.range 1).map Except.ok) ++ [Except.error AllocError.allocError] ∧
    (claimSeq 9 (Section.new 0 (Atomics.u8 0))).1 =
      ((List.range 8).map Except.ok) ++ [Except.error AllocError.allocError] ∧
    (claimSeq 17 (Section.new 0 (Atomics.u16 0))).1 =
      ((List.range 16).map Except.ok) ++ [Except.error AllocError.allocError] ∧
    (claimSeq 33 (Section.new 0 (Atomics.u32 0))).1 =
      ((List.range 32).map Except.ok) ++ [Except.error AllocError.allocError] ∧
    (claimSeq 65 (Section.new 0 (Atomics.u64 0))).1 =
      ((List.range 64).map Except.ok) ++ [Except.error AllocError.allocError] :=
  ⟨Section.allocate_spec s hwf hfree, rfl, rfl, rfl, rfl, rfl⟩

/-- Witness for C4 at the mask `0b101` (slots 0 and 2 taken): the claim
takes slot 1. -/
theorem claim_lowest_witness :
    ∃ k, k < (Section.new 0 (Atomics.u8 5)).allocated.width ∧
      (Section.new 0 (Atomics.u8 5)).allocated.val.testBit k = false ∧
      (∀ j, j < k → (Section.new 0 (Atomics.u8 5)).allocated.val.testBit j = true) ∧
      ((Section.new 0 (Atomics.u8 5)).allocate).1 = Except.ok k ∧
      ((Section.new 0 (Atomics.u8 5)).allocate).2.size =
        (Section.new 0 (Atomics.u8 5)).size ∧
      ((Section.new 0 (Atomics.u8 5)).allocate).2.allocated.width =
        (Section.new 0 (Atomics.u8 5)).allocated.width ∧
      ((Section.new 0 (Atomics.u8 5)).allocate).2.allocated.val =
        (Section.new 0 (Atomics.u8 5)).allocated.val ||| 2 ^ k :=
  (claim_lowest_and_exhaustion (Section.new 0 (Atomics.u8 5))
    (by decide) (by decide)).1

/-- C5.  Construction fails with `BufferTooSmall` exactly when, walking the
section specs in order and slicing `slot_size × total_slots` bytes off the
front for each, some section's byte requirement exceeds the buffer remaining
at that point; and a buffer exactly equal to the total requirement
succeeds. -/
theorem new_bufTooSmall_iff (blocks : List Section) (bufLen : Nat) :
    (SlabAllocator.new blocks bufLen = Except.error BufTooSmall.bufTooSmall ↔
      ∃ j, ∃ hj : j < blocks.length,
        bufLen - ((blocks.take j).map sectionBytes).sum <
          sectionBytes (blocks.get ⟨j, hj⟩)) ∧
    ∃ aEx, SlabAllocator.new blocks ((blocks.map sectionBytes).sum) =
      Except.ok aEx := by
  constructor
  · unfold SlabAllocator.new
    cases hgo : newGo blocks 0 bufLen with
    | error e =>
        cases e
        exact iff_of_true rfl ((newGo_error_iff blocks 0 bufLen).mp hgo)
    | ok buf =>
        constructor
        · intro hc; exact Except.noConfusion hc
        · intro hex
          have hcontra := (newGo_error_iff blocks 0 bufLen).mpr hex
          rw [hgo] at hcontra
          exact Except.noConfusion hcontra
  · cases hgo : newGo blocks 0 ((blocks.map sectionBytes).sum) with
    | error e =>
        cases e
        exfalso
        obtain ⟨j, hj, hlt⟩ := (newGo_error_iff blocks 0 _).mp hgo
        have hle := take_sum_get_le blocks j hj
        omega
    | ok buf =>
        refine ⟨{ blocks := blocks, buffer := buf }, ?_⟩
        unfold SlabAllocator.new
        rw [hgo]

/-- C6.  For every well-formed section and in-range slot index, release fails
(`InvalidSlot`) exactly when the bit at that index is already clear; when the
bit is set, release succeeds and clears exactly that bit. -/
theorem release_invalid_iff (s : Section) (hwf : s.allocated.wf) (i : Nat)
    (hi : i < s.allocated.width) :
    ((s.deallocate i).1 = Except.error AllocError.allocError ↔
      s.allocated.val.testBit i = false) ∧
    (s.allocated.val.testBit i = true →
      (s.deallocate i).1 = Except.ok () ∧
      (s.deallocate i).2.size = s.size ∧
      (s.deallocate i).2.allocated.width = s.allocated.width ∧
      ∀ j, (s.deallocate i).2.allocated.val.testBit j =
        (s.allocated.val.testBit j && ! decide (j = i))) :=
  Section.deallocate_spec s hwf i hi

/-- Witness for C6: releasing slot 0 of a fresh all-free section is a double
free and fails. -/
theorem release_invalid_iff_witness :
    ((Section.new 0 (Atomics.u8 0)).deallocate 0).1 =
      Except.error AllocError.allocError :=
  ((release_invalid_iff (Section.new 0 (Atomics.u8 0)) (by decide) 0
    (by decide)).1).mpr (by decide)

/-- C8.  Claiming a slot from any well-formed section with a free slot and
then releasing the returned index succeeds and restores the section — its
bitmask and hence `free_slots()` — to the value before the claim. -/
theorem claim_then_release_roundtrip (s : Section) (hwf : s.allocated.wf)
    (hfree : 0 < s.free_slots) :
    ∃ k, (s.allocate).1 = Except.ok k ∧
      (s.allocate).2.deallocate k = (Except.ok (), s) ∧
      ((s.allocate).2.deallocate k).2.free_slots = s.free_slots := by
  obtain ⟨k, h1, h2⟩ := Section.claim_release s hwf hfree
  refine ⟨k, h1, h2, ?_⟩
  rw [h2]

/-- Witness for C8 at a `u16` section with mask `0b110`. -/
theorem claim_then_release_roundtrip_witness :
    ∃ k, ((Section.new 4 (Atomics.u16 6)).allocate).1 = Except.ok k ∧
      ((Section.new 4 (Atomics.u16 6)).allocate).2.deallocate k =
        (Except.ok (), Section.new 4 (Atomics.u16 6)) ∧
      (((Section.new 4 (Atomics.u16 6)).allocate).2.deallocate k).2.free_slots =
        (Section.new 4 (Atomics.u16 6)).free_slots :=
  claim_then_release_roundtrip (Section.new 4 (Atomics.u16 6))
    (by decide) (by decide)

/-- C7.  Atomicity of claim and release on a well-formed section: a failing
claim leaves the bitmask unchanged and a successful claim sets exactly the
claimed bit (which was clear); a failing release (at any in-range index)
leaves the bitmask unchanged and a successful release clears exactly the
given bit (which was set).  No partial bit mutation occurs. -/
theorem claim_release_atomicity (s : Section) (hwf : s.allocated.wf) :
    ((s.allocate).1 = Except.error AllocError.allocError → (s.allocate).2 = s) ∧
    (∀ k, (s.allocate).1 = Except.ok k →
      s.allocated.val.testBit k = false ∧
      (s.allocate).2.allocated.val = s.allocated.val ||| 2 ^ k ∧
      (s.allocate).2.allocated.width = s.allocated.width ∧
      (s.allocate).2.size = s.size) ∧
    ∀ i, i < s.allocated.width →
      ((s.deallocate i).1 = Except.error AllocError.allocError →
        (s.deallocate i).2 = s) ∧
      ((s.deallocate i).1 = Except.ok () →
        s.allocated.val.testBit i = true ∧
        (s.deallocate i).2.allocated.width = s.allocated.width ∧
        (s.deallocate i).2.size = s.size ∧
        ∀ j, (s.deallocate i).2.allocated.val.testBit j =
          (s.allocated.val.testBit j && ! decide (j = i))) := by
  refine ⟨Section.allocate_err_state s, ?_, ?_⟩
  · intro k hk
    by_cases hfree : 0 < s.free_slots
    · obtain ⟨k0, _, htb, _, hok, hsize, hwidth, hval⟩ :=
        Section.allocate_spec s hwf hfree
      have hkk : k0 = k := Except.ok.inj (hok.symm.trans hk)
      subst hkk
      exact ⟨htb, hval, hwidth, hsize⟩
    · exfalso
      have herr := Section.free_slots_zero_err s hwf (by omega)
      rw [hk] at herr
      exact Except.noConfusion herr
  · intro i hi
    refine ⟨Section.deallocate_err_state s i, ?_⟩
    intro hok
    have hspec := Section.deallocate_spec s hwf i hi
    cases hb : s.allocated.val.testBit i
    · have herr := hspec.1.mpr hb
      rw [hok] at herr
      exact Except.noConfusion herr
    · obtain ⟨_, hsize, hwidth, hbits⟩ := hspec.2 hb
      exact ⟨rfl, hwidth, hsize, hbits⟩

/-- Witness for C7 at a `u16` section with mask `0b11`. -/
theorem claim_release_atomicity_witness :
    (((Section.new 0 (Atomics.u16 3)).allocate).1 =
        Except.error AllocError.allocError →
      ((Section.new 0 (Atomics.u16 3)).allocate).2 =
        Section.new 0 (Atomics.u16 3)) ∧
    (∀ k, ((Section.new 0 (Atomics.u16 3)).allocate).1 = Except.ok k →
      (Section.new 0 (Atomics.u16 3)).allocated.val.testBit k = false ∧
      ((Section.new 0 (Atomics.u16 3)).allocate).2.allocated.val =
        (Section.new 0 (Atomics.u16 3)).allocated.val ||| 2 ^ k ∧
      ((Section.new 0 (Atomics.u16 3)).allocate).2.allocated.width =
        (Section.new 0 (Atomics.u16 3)).allocated.width ∧
      ((Section.new 0 (Atomics.u16 3)).allocate).2.size =
        (Section.new 0 (Atomics.u16 3)).size) ∧
    ∀ i, i < (Section.new 0 (Atomics.u16 3)).allocated.width →
      (((Section.new 0 (Atomics.u16 3)).deallocate i).1 =
          Except.error AllocError.allocError →
        ((Section.new 0 (Atomics.u16 3)).deallocate i).2 =
          Section.new 0 (Atomics.u16 3)) ∧
      (((Section.new 0 (Atomics.u16 3)).deallocate i).1 = Except.ok () →
        (Section.new 0 (Atomics.u16 3)).allocated.val.testBit i = true ∧
        ((Section.new 0 (Atomics.u16 3)).deallocate i).2.allocated.width =
          (Section.new 0 (Atomics.u16 3)).allocated.width ∧
        ((Section.new 0 (Atomics.u16 3)).deallocate i).2.size =
          (Section.new 0 (Atomics.u16 3)).size ∧
        ∀ j, ((Section.new 0 (Atomics.u16 3)).deallocate i).2.allocated.val.testBit j =
          ((Section.new 0 (Atomics.u16 3)).allocated.val.testBit j &&
            ! decide (j = i))) :=
  claim_release_atomicity (Section.new 0 (Atomics.u16 3)) (by decide)

/-- C10.  `Section::new(size, quantity)` stores the passed atomic value as
the occupancy bitmask without resetting it: immediately after construction
`free_slots()` equals the number of zero bits within the width of the passed
value; a nonzero value starts with at least one slot allocated
(`free_slots < total_slots`); and `percent_free()` is 100 exactly for the
zero value.  (`percent_free` is modelled over ℚ; on this domain the `f32`
computation of the source is exact.) -/
theorem section_new_occupancy (size : Nat) (q : Atomics) (hwf : q.wf) :
    (Section.new size q).allocated = q ∧
    (Section.new size q).free_slots =
      ((List.range q.width).filter (fun i => ! q.val.testBit i)).length ∧
    (q.val ≠ 0 →
      (Section.new size q).free_slots < (Section.new size q).total_slots) ∧
    ((Section.new size q).percent_free = 100 ↔ q.val = 0) := by
  have hcount : (Section.new size q).free_slots =
      ((List.range q.width).filter (fun i => ! q.val.testBit i)).length := by
    cases q with
    | bool b => cases b <;> rfl
    | u8 v => exact countZerosAux_eq_filter 8 v
    | u16 v => exact countZerosAux_eq_filter 16 v
    | u32 v => exact countZerosAux_eq_filter 32 v
    | u64 v => exact countZerosAux_eq_filter 64 v
  have htpos : 0 < (Section.new size q).total_slots := by
    cases q <;> simp [Section.new, Section.total_slots]
  refine ⟨rfl, hcount, ?_, ?_⟩
  · intro hnz
    have hne : (Section.new size q).free_slots ≠ (Section.new size q).total_slots :=
      fun hc => hnz ((Section.free_eq_total_iff (Section.new size q) hwf).mp hc)
    have hle : (Section.new size q).free_slots ≤ (Section.new size q).total_slots := by
      cases q with
      | bool b => cases b <;> simp [Section.new, Section.free_slots, Section.total_slots]
      | u8 v => exact countZerosAux_le 8 v
      | u16 v => exact countZerosAux_le 16 v
      | u32 v => exact countZerosAux_le 32 v
      | u64 v => exact countZerosAux_le 64 v
    omega
  · have htposQ : (0 : ℚ) < ((Section.new size q).total_slots : ℚ) := by
      exact_mod_cast htpos
    rw [Section.percent_free, div_mul_eq_mul_div, div_eq_iff (ne_of_gt htposQ)]
    constructor
    · intro h
      have hft : ((Section.new size q).free_slots : ℚ) =
          ((Section.new size q).total_slots : ℚ) := by linarith
      have heq : (Section.new size q).free_slots =
          (Section.new size q).total_slots := by exact_mod_cast hft
      exact (Section.free_eq_total_iff (Section.new size q) hwf).mp heq
    · intro h
      have heq : (Section.new size q).free_slots =
          (Section.new size q).total_slots :=
        (Section.free_eq_total_iff (Section.new size q) hwf).mpr h
      rw [heq]
      ring

/-- Witness for C10 at the `u8` value 37 (`0b100101`, three slots taken). -/
theorem section_new_occupancy_witness :
    (Section.new 7 (Atomics.u8 37)).allocated = Atomics.u8 37 ∧
    (Section.new 7 (Atomics.u8 37)).free_slots =
      ((List.range (Atomics.u8 37).width).filter
        (fun i => ! (Atomics.u8 37).val.testBit i)).length ∧
    ((Atomics.u8 37).val ≠ 0 →
      (Section.new 7 (Atomics.u8 37)).free_slots <
        (Section.new 7 (Atomics.u8 37)).total_slots) ∧
    ((Section.new 7 (Atomics.u8 37)).percent_free = 100 ↔
      (Atomics.u8 37).val = 0) :=
  section_new_occupancy 7 (Atomics.u8 37) (by decide)

/-- C9 counterexample.  The claim quantifies over every allocator state, but
with a zero-slot-size section (constructible, and built by the crate's own
tests via `Section::new(0, …)`) the round trip fails: `new` and `allocate`
succeed — the allocate claims slot 0 of the empty slice and returns its base
address with length 0 (`buffer[0][0..0]`, valid in Rust) — yet `deallocate`
of that address cannot resolve any owning section, because the empty slice's
address range contains no pointer; the code hits its `expect` panic, modelled
as `none`. -/
theorem allocator_roundtrip_zero_size_fails :
    SlabAllocator.new [Section.new 0 (Atomics.u8 0)] 0 =
      Except.ok { blocks := [Section.new 0 (Atomics.u8 0)], buffer := [(0, 0)] } ∧
    SlabAllocator.allocate
        { blocks := [Section.new 0 (Atomics.u8 0)], buffer := [(0, 0)] } 0 1 =
      Except.ok ((0, 0),
        { blocks := [Section.new 0 (Atomics.u8 1)], buffer := [(0, 0)] }) ∧
    SlabAllocator.deallocate
        { blocks := [Section.new 0 (Atomics.u8 1)], buffer := [(0, 0)] } 0 =
      none :=
  ⟨rfl, rfl, rfl⟩

/-- C9 (amended).  Allocator-level round trip, for allocators built by `new`
over well-formed sections all of whose slot sizes are at least 1: if
`allocate` succeeds with an address range and `deallocate` is then called on
that range's start address, the deallocate resolves to the very section the
allocate drew from, the release succeeds, and every section's occupancy
bitmask is restored to its value before the allocate (the post-deallocate
allocator equals the pre-allocate one).  With a zero-slot-size section the
deallocate instead fails to resolve the address (the code panics), as the
counterexample shows. -/
theorem allocator_roundtrip (blocks : List Section) (bufLen size align : Nat)
    (a a2 : SlabAllocator) (addr len : Nat)
    (hnew : SlabAllocator.new blocks bufLen = Except.ok a)
    (hwf : SectionsWF blocks)
    (hsz : ∀ s ∈ blocks, 1 ≤ s.size)
    (hall : a.allocate size align = Except.ok ((addr, len), a2)) :
    (∃ i sec, findFit (padToAlign size align) blocks = some (i, sec) ∧
      (findContaining addr a2.buffer).map Prod.fst = some i) ∧
    a2.deallocate addr = some a := by
  unfold SlabAllocator.new at hnew
  cases hgo : newGo blocks 0 bufLen with
  | error e => rw [hgo] at hnew; exact Except.noConfusion hnew
  | ok buf =>
  rw [hgo] at hnew
  have ha : a = ⟨blocks, buf⟩ := (Except.ok.inj hnew).symm
  subst ha
  have hbuf : buf = buildSlices blocks 0 := newGo_ok_slices blocks 0 bufLen buf hgo
  cases hfind : findFit (padToAlign size align) blocks with
  | none =>
      exfalso
      unfold SlabAllocator.allocate at hall
      simp only [hfind] at hall
      exact Except.noConfusion hall
  | some p =>
  obtain ⟨i, sec⟩ := p
  obtain ⟨hget, hpred, _⟩ := findFit_some_spec _ blocks i sec hfind
  have hmem : sec ∈ blocks := List.get?_mem hget
  have hsecwf : sec.allocated.wf := hwf sec hmem
  obtain ⟨k, hok, hrel⟩ := Section.claim_release sec hsecwf hpred.2
  obtain ⟨k2, hk2w, _, _, hok2, _, _, _⟩ := Section.allocate_spec sec hsecwf hpred.2
  have hkk : k2 = k := Except.ok.inj (hok2.symm.trans hok)
  rw [hkk] at hk2w
  have halloc : sec.allocate = (Except.ok k, (sec.allocate).2) := Prod.ext hok rfl
  have hallEq := SlabAllocator.allocate_ok_eq ⟨blocks, buf⟩ size align i sec k
    hfind halloc
  rw [hallEq] at hall
  have hcomp := Except.ok.inj hall
  have haddr : (buf.getD i (0, 0)).1 + k = addr := congrArg (fun x => x.1.1) hcomp
  have ha2 : ({ blocks := blocks.set i (sec.allocate).2, buffer := buf } :
      SlabAllocator) = a2 := congrArg Prod.snd hcomp
  subst ha2
  obtain ⟨hilt, hgeteq⟩ := List.get?_eq_some.mp hget
  have hslice : buf.getD i (0, 0) =
      (0 + ((blocks.take i).map sectionBytes).sum,
        sectionBytes (blocks.get ⟨i, hilt⟩)) := by
    rw [List.getD_eq_getElem?_getD, ← List.get?_eq_getElem?, hbuf,
      buildSlices_get? blocks 0 i hilt]
    rfl
  have hsecsz : 1 ≤ sec.size := hsz sec hmem
  have hkbytes : k < sectionBytes sec := by
    calc k < sec.allocated.width := hk2w
    _ = sec.allocated.width * 1 := (Nat.mul_one _).symm
    _ ≤ sec.allocated.width * sec.size := Nat.mul_le_mul_left _ hsecsz
    _ = sectionBytes sec := rfl
  have hgetsec : blocks.get ⟨i, hilt⟩ = sec := hgeteq
  rw [hslice] at haddr
  have haddr' : 0 + ((blocks.take i).map sectionBytes).sum + k = addr := haddr
  have hfc : findContaining addr buf =
      some (i, (0 + ((blocks.take i).map sectionBytes).sum,
        sectionBytes (blocks.get ⟨i, hilt⟩))) := by
    rw [hbuf]
    apply findContaining_buildSlices blocks 0 i hilt addr
    · omega
    · rw [hgetsec]; omega
  refine ⟨⟨i, sec, rfl, ?_⟩, ?_⟩
  · show (findContaining addr buf).map Prod.fst = some i
    rw [hfc]
    rfl
  · have hsec2 : (({ blocks := blocks.set i (sec.allocate).2, buffer := buf } :
        SlabAllocator)).blocks.getD i (Section.new 0 (Atomics.bool false)) =
        (sec.allocate).2 := by
      show (blocks.set i (sec.allocate).2).getD i _ = _
      rw [List.getD_eq_getElem?_getD, ← List.get?_eq_getElem?,
        List.get?_eq_getElem?, List.getElem?_set_eq_of_lt _ hilt]
      rfl
    have hoffEq : addr - (0 + ((blocks.take i).map sectionBytes).sum) = k := by
      omega
    have hde : ((sec.allocate).2).deallocate
        (addr - (0 + ((blocks.take i).map sectionBytes).sum)) =
        (Except.ok (), sec) := by
      rw [hoffEq]; exact hrel
    have hfinal := SlabAllocator.deallocate_ok_eq
      { blocks := blocks.set i (sec.allocate).2, buffer := buf } addr i
      (0 + ((blocks.take i).map sectionBytes).sum,
        sectionBytes (blocks.get ⟨i, hilt⟩))
      ((sec.allocate).2) sec hfc hsec2 hde
    rw [hfinal]
    show some ({ blocks := (blocks.set i (sec.allocate).2).set i sec, buffer := buf } :
      SlabAllocator) = _
    rw [List.set_set, list_set_same blocks i sec hget]

/-- Witness for C9: one `u8` section of slot size 1 with an 8-byte buffer;
allocate claims slot 0 at address 0 and deallocating address 0 restores the
initial allocator. -/
theorem allocator_roundtrip_witness :
    (∃ i sec, findFit (padToAlign 1 1) [Section.new 1 (Atomics.u8 0)] =
        some (i, sec) ∧
      (findContaining 0
        (({ blocks := [Section.new 1 (Atomics.u8 1)], buffer := [(0, 8)] } :
          SlabAllocator)).buffer).map Prod.fst = some i) ∧
    SlabAllocator.deallocate
        { blocks := [Section.new 1 (Atomics.u8 1)], buffer := [(0, 8)] } 0 =
      some { blocks := [Section.new 1 (Atomics.u8 0)], buffer := [(0, 8)] } :=
  allocator_roundtrip [Section.new 1 (Atomics.u8 0)] 8 1 1
    { blocks := [Section.new 1 (Atomics.u8 0)], buffer := [(0, 8)] }
    { blocks := [Section.new 1 (Atomics.u8 1)], buffer := [(0, 8)] } 0 1
    rfl (by decide) (by decide) rfl

end Slab
